import Mathlib

/-!
Verification development for the NovaMD workspace storage and
synchronization engine (Go backend, `internal/filesystem` and the git
client / storage service packages).  Go code is shallowly embedded:
pure path manipulation becomes Lean functions over `String`, the
filesystem and the git remote become explicit state records, fallible
calls return `Except`/`Option`, and the outcomes of external effects
(network, disk) are supplied as explicit oracle parameters.
-/

namespace NovaMD

/-! ### Character-level string helpers

Kernel-evaluable replacements for the Go `strings` primitives used by
the code, implemented over `String.data : List Char`. -/

/-- Split a character list at every occurrence of `sep` (Go
`strings.Split` specialised to a one-character separator). -/
def chSplit (sep : Char) : List Char → List Char → List (List Char)
  | acc, [] => [acc.reverse]
  | acc, c :: t => if c = sep then acc.reverse :: chSplit sep [] t else chSplit sep (c :: acc) t

/-- Split a string on the path separator `/`. -/
def strSplitSlash (s : String) : List String :=
  (chSplit '/' [] s.data).map List.asString

/-- Go `strings.ToLower` restricted to ASCII case mapping (the inputs
modelled here are ASCII file names). -/
def strLower (s : String) : String := (s.data.map Char.toLower).asString

/-! ### Go `path/filepath` (Unix): `Clean` and `Join`

`filepath.Clean` is purely lexical: it iterates over the
`/`-separated elements, dropping empty and `.` elements and resolving
`..` against the output stack (a `..` at the top of a rooted path is
dropped; in a relative path it is kept). -/

/-- One step of Go `filepath.Clean` element processing.  `acc` is the
output stack in reverse order. -/
def cleanStep (rooted : Bool) (acc : List String) (seg : String) : List String :=
  if seg = "" ∨ seg = "." then acc
  else if seg = ".." then
    match acc with
    | [] => if rooted then [] else [".."]
    | a :: t => if a = ".." then ".." :: a :: t else t
  else seg :: acc

/-- Embedding of Go `filepath.Clean` (Unix separator). -/
def pathClean (p : String) : String :=
  if p = "" then "." else
  let rooted := p.data.take 1 = ['/']
  let segs := ((strSplitSlash p).foldl (cleanStep rooted) []).reverse
  if segs = [] then (if rooted then "/" else ".")
  else (if rooted then "/" else "") ++ "/".intercalate segs

/-- Embedding of Go `filepath.Join`: concatenate the non-empty
elements with `/` and `Clean` the result; if every element is empty
the result is the empty string. -/
def pathJoin (elems : List String) : String :=
  let ne := elems.filter (fun e => e ≠ "")
  if ne = [] then "" else pathClean ("/".intercalate ne)

/-! ### PathResolver: `GetWorkspacePath` and `ValidatePath`
(filesystem.go lines 32-34 and 56-66) -/

/-- Embedding of `FileSystem.GetWorkspacePath`:
`filepath.Join(fs.RootDir, fmt.Sprintf("%d", userID), fmt.Sprintf("%d", workspaceID))`. -/
def GetWorkspacePath (rootDir : String) (userID workspaceID : Nat) : String :=
  pathJoin [rootDir, toString userID, toString workspaceID]

/-- Embedding of `FileSystem.ValidatePath` (filesystem.go:56-66).
Joins the workspace root with the relative path, lexically cleans the
result, and accepts it when the workspace root is a bare string
prefix of the cleaned path (`strings.HasPrefix(cleanPath, workspacePath)`). -/
def ValidatePath (rootDir : String) (userID workspaceID : Nat) (path : String) :
    Except String String :=
  let workspacePath := GetWorkspacePath rootDir userID workspaceID
  let fullPath := pathJoin [workspacePath, path]
  let cleanPath := pathClean fullPath
  if workspacePath.data.isPrefixOf cleanPath.data then .ok cleanPath
  else .error "invalid path: outside of workspace"

/-- Spec-side resolver for comparison with `ValidatePath`: the spec
requires the descendant check to "compare the root plus a trailing
path separator, not a bare string prefix", so a path is accepted
exactly when the cleaned result extends the root followed by `/`. -/
def validatePathSeparatorAware (rootDir : String) (userID workspaceID : Nat) (path : String) :
    Except String String :=
  let workspacePath := GetWorkspacePath rootDir userID workspaceID
  let cleanPath := pathClean (pathJoin [workspacePath, path])
  if (workspacePath ++ "/").data.isPrefixOf cleanPath.data then .ok cleanPath
  else .error "invalid path: outside of workspace"

/-! ### Association-list maps

Embedding of the Go maps used by the registry.  The registry maps are
always built from the empty map by indexed assignment and `delete`, so
an association list with key-replacing insert is an exact model. -/

/-- Lookup in an association list (Go `m[k]` with `ok` flag). -/
def lookupA {κ α : Type} [DecidableEq κ] : List (κ × α) → κ → Option α
  | [], _ => none
  | (k, v) :: t, k0 => if k = k0 then some v else lookupA t k0

/-- Insert or replace a binding (Go `m[k] = v`). -/
def insertA {κ α : Type} [DecidableEq κ] : List (κ × α) → κ → α → List (κ × α)
  | [], k0, v0 => [(k0, v0)]
  | (k, v) :: t, k0, v0 => if k = k0 then (k0, v0) :: t else (k, v) :: insertA t k0 v0

/-- Remove a binding if present (Go `delete(m, k)`). -/
def eraseA {κ α : Type} [DecidableEq κ] : List (κ × α) → κ → List (κ × α)
  | [], _ => []
  | (k, v) :: t, k0 => if k = k0 then t else (k, v) :: eraseA t k0

theorem lookupA_insertA_self {κ α : Type} [DecidableEq κ]
    (l : List (κ × α)) (k : κ) (v : α) : lookupA (insertA l k v) k = some v := by
  induction l with
  | nil => simp [insertA, lookupA]
  | cons p t ih =>
    obtain ⟨a, b⟩ := p
    by_cases h : a = k
    · simp [insertA, lookupA, h]
    · simp [insertA, lookupA, h, ih]

theorem insertA_of_lookupA_eq {κ α : Type} [DecidableEq κ]
    (l : List (κ × α)) (k : κ) (v : α) (h : lookupA l k = some v) :
    insertA l k v = l := by
  induction l with
  | nil => simp [lookupA] at h
  | cons p t ih =>
    obtain ⟨a, b⟩ := p
    by_cases hk : a = k
    · subst hk
      simp [lookupA] at h
      simp [insertA, h]
    · simp [lookupA, hk] at h
      simp [insertA, hk, ih h]

theorem eraseA_of_lookupA_none {κ α : Type} [DecidableEq κ]
    (l : List (κ × α)) (k : κ) (h : lookupA l k = none) : eraseA l k = l := by
  induction l with
  | nil => rfl
  | cons p t ih =>
    obtain ⟨a, b⟩ := p
    by_cases hk : a = k
    · simp [lookupA, hk] at h
    · simp [lookupA, hk] at h
      simp [eraseA, hk, ih h]

theorem mem_insertA {κ α : Type} [DecidableEq κ]
    (l : List (κ × α)) (k : κ) (v : α) (q : κ × α) (h : q ∈ insertA l k v) :
    q ∈ l ∨ q = (k, v) := by
  induction l with
  | nil =>
    simp [insertA] at h
    exact Or.inr h
  | cons p t ih =>
    obtain ⟨a, b⟩ := p
    by_cases hk : a = k
    · simp [insertA, hk] at h
      rcases h with h | h
      · exact Or.inr h
      · exact Or.inl (List.mem_cons_of_mem _ h)
    · simp [insertA, hk] at h
      rcases h with h | h
      · exact Or.inl (by simp [h])
      · rcases ih h with h2 | h2
        · exact Or.inl (List.mem_cons_of_mem _ h2)
        · exact Or.inr h2

theorem lookupA_mem {κ α : Type} [DecidableEq κ]
    (l : List (κ × α)) (k : κ) (v : α) (h : lookupA l k = some v) : (k, v) ∈ l := by
  induction l with
  | nil => simp [lookupA] at h
  | cons p t ih =>
    obtain ⟨a, b⟩ := p
    by_cases hk : a = k
    · subst hk
      simp [lookupA] at h
      simp [h]
    · simp [lookupA, hk] at h
      exact List.mem_cons_of_mem _ (ih h)

theorem insertA_ne_nil {κ α : Type} [DecidableEq κ]
    (l : List (κ × α)) (k : κ) (v : α) : insertA l k v ≠ [] := by
  cases l with
  | nil => simp [insertA]
  | cons p t =>
    obtain ⟨a, b⟩ := p
    by_cases hk : a = k <;> simp [insertA, hk]

theorem mem_eraseA {κ α : Type} [DecidableEq κ]
    (l : List (κ × α)) (k : κ) (q : κ × α) (h : q ∈ eraseA l k) : q ∈ l := by
  induction l with
  | nil => simp [eraseA] at h
  | cons p t ih =>
    obtain ⟨a, b⟩ := p
    by_cases hk : a = k
    · simp [eraseA, hk] at h
      exact List.mem_cons_of_mem _ h
    · simp [eraseA, hk] at h
      rcases h with h | h
      · exact by simp [h]
      · exact List.mem_cons_of_mem _ (ih h)

/-! ### The `FileSystem` record and the repository-handle registry
(filesystem.go lines 13-16, 202-218, 242-249) -/

/-- Embedding of `gitutils.GitRepo` as constructed by `gitutils.New`:
the remote URL, the credential, and the local working directory. -/
structure GitRepo where
  gitURL : String
  gitUser : String
  gitToken : String
  workDir : String
deriving DecidableEq, Repr

/-- Embedding of the `FileSystem` struct (filesystem.go:13-16): the
root directory and the nested registry map
`map[userID]map[workspaceID]*gitutils.GitRepo`. -/
structure FileSystem where
  RootDir : String
  GitRepos : List (Nat × List (Nat × GitRepo))
deriving DecidableEq

/-- Embedding of `FileSystem.SetupGitRepo` (filesystem.go:202-209).
The Go code creates the inner map for `userID` when absent, stores the
freshly constructed handle under `(userID, workspaceID)`, and then
returns the result of the handle's `EnsureRepo` call; the outcome of
that external call is supplied as the oracle `ensureResult`
(`none` = success). -/
def SetupGitRepo (fs : FileSystem) (userID workspaceID : Nat)
    (gitURL gitUser gitToken : String) (ensureResult : Option String) :
    FileSystem × Option String :=
  let workspacePath := GetWorkspacePath fs.RootDir userID workspaceID
  let handle : GitRepo := ⟨gitURL, gitUser, gitToken, workspacePath⟩
  let inner := (lookupA fs.GitRepos userID).getD []
  ({ fs with GitRepos := insertA fs.GitRepos userID (insertA inner workspaceID handle) },
   ensureResult)

/-- Embedding of `FileSystem.DisableGitRepo` (filesystem.go:211-218):
remove the workspace's handle from the user's inner map, and drop the
user's key from the outer map when the inner map becomes empty. -/
def DisableGitRepo (fs : FileSystem) (userID workspaceID : Nat) : FileSystem :=
  match lookupA fs.GitRepos userID with
  | none => fs
  | some userRepos =>
    let userRepos2 := eraseA userRepos workspaceID
    if userRepos2.length = 0 then { fs with GitRepos := eraseA fs.GitRepos userID }
    else { fs with GitRepos := insertA fs.GitRepos userID userRepos2 }

/-- Embedding of `FileSystem.getGitRepo` (filesystem.go:242-249). -/
def getGitRepo (fs : FileSystem) (userID workspaceID : Nat) : Option GitRepo :=
  match lookupA fs.GitRepos userID with
  | none => none
  | some userRepos => lookupA userRepos workspaceID

/-- Invariant of the nested registry map: every user key present in
the outer map carries a non-empty inner workspace map. -/
def RegistryInv (reg : List (Nat × List (Nat × GitRepo))) : Prop :=
  ∀ p ∈ reg, p.2 ≠ []

/-! ### FileStore: `SaveFile` / `GetFileContent`
(filesystem.go lines 167-187)

The disk is modelled as a finite map from absolute paths to byte
contents (bytes as `Nat`).  `os.MkdirAll` only creates directories and
cannot change any file, so it is the identity on this map;
`os.WriteFile` creates or truncates the file at the validated path;
`os.ReadFile` fails when the file is absent. -/

/-- The on-disk file contents: absolute path to byte sequence. -/
def Disk : Type := List (String × List Nat)

/-- Embedding of `FileSystem.SaveFile` (filesystem.go:175-187):
validate the path, ensure the parent directory exists, then write the
content at the validated absolute path. -/
def SaveFile (fs : FileSystem) (disk : Disk) (userID workspaceID : Nat)
    (filePath : String) (content : List Nat) : Except String Disk :=
  match ValidatePath fs.RootDir userID workspaceID filePath with
  | .error e => .error e
  | .ok fullPath => .ok (insertA disk fullPath content)

/-- Embedding of `FileSystem.GetFileContent` (filesystem.go:167-173):
validate the path, then read the file at the validated absolute path. -/
def GetFileContent (fs : FileSystem) (disk : Disk) (userID workspaceID : Nat)
    (filePath : String) : Except String (List Nat) :=
  match ValidatePath fs.RootDir userID workspaceID filePath with
  | .error e => .error e
  | .ok fullPath =>
    match lookupA disk fullPath with
    | none => .error "file does not exist"
    | some c => .ok c

/-! ### Git client model (git package, part_003; gitutils)

The states of the local clone and of the remote are explicit: the
working directory either holds a `.git` directory or not, the client
either holds an open repository handle (`c.repo != nil`) or not, and
the commit histories of the local clone and of the remote are lists of
commit messages, newest first.  The outcomes of the external calls
(network clone/pull/push, opening the on-disk repository, committing)
are supplied by a `GitEnv` oracle; `none` means the call succeeds.
The library's already-up-to-date sentinel is normalized to success by
the code, hence folded into `none` here. -/

/-- Trace of git operations attempted against the clone or remote. -/
inductive GitOp where
  | cloneOp
  | openOp
  | pullOp
  | commitOp
  | pushOp
deriving DecidableEq, Repr

/-- Outcomes of the external git calls. -/
structure GitEnv where
  cloneErr : Option String
  openErr : Option String
  pullErr : Option String
  commitErr : Option String
  pushErr : Option String
deriving DecidableEq, Repr

/-- State of the working directory: whether `WorkDir/.git` exists. -/
structure GitWorld where
  gitDirExists : Bool
deriving DecidableEq, Repr

/-- State of the `git.client` struct: whether `c.repo` is non-nil. -/
structure GitClient where
  repoOpen : Bool
deriving DecidableEq, Repr

/-- Result of a client call: new states, operation trace, error. -/
structure GitResult where
  world : GitWorld
  client : GitClient
  trace : List GitOp
  err : Option String
deriving DecidableEq, Repr

/-- Embedding of `client.Clone` (git.go/part_003:75-97): `PlainClone`
into the working directory; on success the clone exists on disk and
the client holds the open repository. -/
def Clone (w : GitWorld) (c : GitClient) (env : GitEnv) : GitResult :=
  match env.cloneErr with
  | some e => ⟨w, c, [.cloneOp], some ("failed to clone repository: " ++ e)⟩
  | none => ⟨⟨true⟩, ⟨true⟩, [.cloneOp], none⟩

/-- Embedding of `client.Pull` (part_003:100-134): requires an
initialized repository handle; the already-up-to-date sentinel is
normalized to success. -/
def PullClient (w : GitWorld) (c : GitClient) (env : GitEnv) : GitResult :=
  if c.repoOpen = false then ⟨w, c, [], some "repository not initialized"⟩
  else
    match env.pullErr with
    | some e => ⟨w, c, [.pullOp], some ("failed to pull changes: " ++ e)⟩
    | none => ⟨w, c, [.pullOp], none⟩

/-- Embedding of `client.EnsureRepo` (part_003:205-224): when no
`.git` directory exists at the working directory, clone; otherwise
open the existing repository (`PlainOpen`) and pull. -/
def EnsureRepo (w : GitWorld) (c : GitClient) (env : GitEnv) : GitResult :=
  if w.gitDirExists = false then Clone w c env
  else
    match env.openErr with
    | some e => ⟨w, c, [.openOp], some ("failed to open existing repository: " ++ e)⟩
    | none =>
      let r := PullClient w ⟨true⟩ env
      ⟨r.world, r.client, .openOp :: r.trace, r.err⟩

/-! ### Commit / push and `StageCommitAndPush`
(filesystem.go lines 220-231) -/

/-- Commit histories of the local clone and of the remote, newest
commit message first. -/
structure RepoState where
  localHistory : List String
  remoteHistory : List String
deriving DecidableEq, Repr

/-- Embedding of the handle's `Commit(message)`: stage everything and
commit; on success the local history grows by one commit. -/
def CommitLocal (st : RepoState) (message : String) (env : GitEnv) :
    RepoState × Option String :=
  match env.commitErr with
  | some e => (st, some e)
  | none => ({ st with localHistory := message :: st.localHistory }, none)

/-- Embedding of the handle's `Push()`: on success the remote history
becomes the local history; the already-up-to-date sentinel is
normalized to success. -/
def PushRemote (st : RepoState) (env : GitEnv) : RepoState × Option String :=
  match env.pushErr with
  | some e => (st, some e)
  | none => ({ st with remoteHistory := st.localHistory }, none)

/-- Embedding of `FileSystem.StageCommitAndPush` (filesystem.go:220-231):
look up the handle for `(userID, workspaceID)`; when absent, fail with
the git-not-configured error without touching the repository; otherwise
commit, and only if the commit succeeds, push.  Returns the new
repository state, the trace of attempted operations, and the error. -/
def StageCommitAndPush (fs : FileSystem) (userID workspaceID : Nat)
    (st : RepoState) (message : String) (env : GitEnv) :
    RepoState × List GitOp × Option String :=
  match getGitRepo fs userID workspaceID with
  | none => (st, [], some "git settings not configured for this workspace")
  | some _ =>
    let r1 := CommitLocal st message env
    match r1.2 with
    | some e => (r1.1, [.commitOp], some e)
    | none =>
      let r2 := PushRemote r1.1 env
      (r2.1, [.commitOp, .pushOp], r2.2)

/-! ### Directory trees

The on-disk state of one directory is a list of entries; an entry is a
regular file with its byte content or a subdirectory with its own
entries.  `os.ReadDir`, `filepath.Walk` and `filepath.WalkDir` all
visit the entries of a directory sorted by file name (byte-wise);
ASCII names are modelled, where byte order is code-point order. -/

/-- A directory entry: a regular file (with its bytes) or a
subdirectory (with its entries). -/
inductive FSEntry where
  | file (name : String) (content : List Nat) : FSEntry
  | dir (name : String) (entries : List FSEntry) : FSEntry

/-- The entry's file name. -/
def FSEntry.name : FSEntry → String
  | .file n _ => n
  | .dir n _ => n

/-- Go `entry.IsDir()`. -/
def FSEntry.isDir : FSEntry → Bool
  | .file _ _ => false
  | .dir _ _ => true

/-- The entries of a subdirectory (empty for a regular file). -/
def FSEntry.childEntries : FSEntry → List FSEntry
  | .file _ _ => []
  | .dir _ es => es

/-- Lexicographic less-or-equal on code-point lists (the order of Go
byte-wise string comparison on ASCII names). -/
def lexLE : List Nat → List Nat → Bool
  | [], _ => true
  | _ :: _, [] => false
  | a :: as, b :: bs => if a < b then true else if b < a then false else lexLE as bs

theorem lexLE_cons (a b : Nat) (as bs : List Nat) :
    lexLE (a :: as) (b :: bs) = true ↔ (a < b ∨ (a = b ∧ lexLE as bs = true)) := by
  by_cases h1 : a < b
  · simp [lexLE, h1]
  · by_cases h2 : b < a
    · have hne : a ≠ b := Nat.ne_of_gt h2
      simp [lexLE, h1, h2, hne]
    · have hab : a = b := Nat.le_antisymm (Nat.le_of_not_lt h2) (Nat.le_of_not_lt h1)
      simp [lexLE, h1, h2, hab]

theorem lexLE_total : ∀ x y : List Nat, lexLE x y = true ∨ lexLE y x = true
  | [], _ => Or.inl rfl
  | _ :: _, [] => Or.inr rfl
  | a :: as, b :: bs => by
    rcases Nat.lt_trichotomy a b with h | h | h
    · exact Or.inl ((lexLE_cons a b as bs).mpr (Or.inl h))
    · rcases lexLE_total as bs with hr | hr
      · exact Or.inl ((lexLE_cons a b as bs).mpr (Or.inr ⟨h, hr⟩))
      · exact Or.inr ((lexLE_cons b a bs as).mpr (Or.inr ⟨h.symm, hr⟩))
    · exact Or.inr ((lexLE_cons b a bs as).mpr (Or.inl h))

theorem lexLE_trans : ∀ x y z : List Nat,
    lexLE x y = true → lexLE y z = true → lexLE x z = true
  | [], _, _, _, _ => rfl
  | _ :: _, [], _, h, _ => by simp [lexLE] at h
  | _ :: _, _ :: _, [], _, h => by simp [lexLE] at h
  | a :: as, b :: bs, c :: cs, h1, h2 => by
    rcases (lexLE_cons a b as bs).mp h1 with hab | ⟨hab, hr1⟩ <;>
      rcases (lexLE_cons b c bs cs).mp h2 with hbc | ⟨hbc, hr2⟩
    · exact (lexLE_cons a c as cs).mpr (Or.inl (Nat.lt_trans hab hbc))
    · exact (lexLE_cons a c as cs).mpr (Or.inl (hbc ▸ hab))
    · exact (lexLE_cons a c as cs).mpr (Or.inl (hab ▸ hbc))
    · exact (lexLE_cons a c as cs).mpr
        (Or.inr ⟨hab.trans hbc, lexLE_trans as bs cs hr1 hr2⟩)

/-- Code points of a name (byte order on ASCII names). -/
def nameKey (s : String) : List Nat := s.data.map Char.toNat

/-- Lower-cased code points: the key `strings.ToLower(name)` compared
by `walkDirectory`'s `sort.Slice` comparators. -/
def lowerKey (s : String) : List Nat := (strLower s).data.map Char.toNat

/-- The case-insensitive name order realized by `walkDirectory`'s
`sort.Slice` comparator `strings.ToLower(a.Name()) < strings.ToLower(b.Name())`. -/
def ciLE (e1 e2 : FSEntry) : Prop := lexLE (lowerKey e1.name) (lowerKey e2.name) = true

instance : DecidableRel ciLE := fun e1 e2 => by unfold ciLE; infer_instance

instance : IsTotal FSEntry ciLE := ⟨fun _ _ => lexLE_total _ _⟩

instance : IsTrans FSEntry ciLE := ⟨fun _ _ _ => lexLE_trans _ _ _⟩

/-- Byte order on entry names: the order in which `os.ReadDir`,
`filepath.Walk` and `filepath.WalkDir` visit a directory's entries. -/
def byLE (e1 e2 : FSEntry) : Prop := lexLE (nameKey e1.name) (nameKey e2.name) = true

instance : DecidableRel byLE := fun e1 e2 => by unfold byLE; infer_instance

theorem sizeOf_filter_le {α : Type} [SizeOf α] (p : α → Bool) (l : List α) :
    sizeOf (l.filter p) ≤ sizeOf l := by
  induction l with
  | nil => simp
  | cons a t ih =>
    by_cases h : p a = true
    · rw [List.filter_cons_of_pos h]
      simp only [List.cons.sizeOf_spec]
      omega
    · rw [List.filter_cons_of_neg (by simp [h])]
      simp only [List.cons.sizeOf_spec]
      omega

theorem sizeOf_insertionSort_eq (r : FSEntry → FSEntry → Prop) [DecidableRel r]
    (l : List FSEntry) : sizeOf (List.insertionSort r l) = sizeOf l :=
  (List.perm_insertionSort r l).sizeOf_eq_sizeOf

/-- The JSON node emitted by the tree walker (filesystem.go:18-23). -/
structure FileNode where
  ID : String
  Name : String
  Path : String
  Children : List FileNode

mutual

/-- Embedding of `FileSystem.walkDirectory` (filesystem.go:73-134):
partition the directory's entries into subdirectories and files, sort
each partition by the case-insensitive comparator (Go `sort.Slice`,
modelled by insertion sort, which realizes an order sorted under the
total preorder `ciLE`), then emit all subdirectory nodes (recursively
expanded) followed by all file nodes. -/
def walkDirectory (pre : String) (entries : List FSEntry) : List FileNode :=
  let ds := List.insertionSort ciLE (entries.filter FSEntry.isDir)
  let fls := List.insertionSort ciLE (entries.filter fun e => !e.isDir)
  walkNodes pre ds ++ walkNodes pre fls
termination_by 2 * sizeOf entries + 1
decreasing_by
  · have h1 := sizeOf_insertionSort_eq ciLE (entries.filter FSEntry.isDir)
    have h2 := sizeOf_filter_le FSEntry.isDir entries
    omega
  · have h1 := sizeOf_insertionSort_eq ciLE (entries.filter fun e => !e.isDir)
    have h2 := sizeOf_filter_le (fun e => !FSEntry.isDir e) entries
    omega

/-- Emit the `FileNode`s for a run of entries, in order: a directory
node carries its recursively expanded children; `ID` and `Path` are
`filepath.Join(prefix, name)`. -/
def walkNodes (pre : String) : List FSEntry → List FileNode
  | [] => []
  | .dir n es :: t =>
    { ID := pathJoin [pre, n], Name := n, Path := pathJoin [pre, n],
      Children := walkDirectory (pathJoin [pre, n]) es } :: walkNodes pre t
  | .file n _ :: t =>
    { ID := pathJoin [pre, n], Name := n, Path := pathJoin [pre, n],
      Children := [] } :: walkNodes pre t
termination_by l => 2 * sizeOf l
decreasing_by
  · simp only [List.cons.sizeOf_spec, FSEntry.dir.sizeOf_spec]
    omega
  · simp only [List.cons.sizeOf_spec]
    omega
  · simp only [List.cons.sizeOf_spec]
    omega

end

/-- The node `walkDirectory` emits for one entry: a file node, or a
directory node carrying the recursively expanded children. -/
def entryNode (pre : String) (e : FSEntry) : FileNode :=
  { ID := pathJoin [pre, e.name], Name := e.name, Path := pathJoin [pre, e.name],
    Children := walkDirectory (pathJoin [pre, e.name]) e.childEntries }

theorem walkDirectory_nil (pre : String) : walkDirectory pre [] = [] := by
  rw [walkDirectory]
  simp [walkNodes]

theorem walkNodes_eq_map (pre : String) (l : List FSEntry) :
    walkNodes pre l = l.map (entryNode pre) := by
  induction l with
  | nil => simp [walkNodes]
  | cons e t ih =>
    cases e with
    | dir n es =>
      simp [walkNodes, entryNode, ih, FSEntry.name, FSEntry.childEntries]
    | file n c =>
      simp [walkNodes, entryNode, ih, FSEntry.name, FSEntry.childEntries, walkDirectory_nil]

/-! ### `FindFileByName` (filesystem.go:136-165; part_004:116-145)

`filepath.Walk` visits the workspace root (a directory, hence ignored
by the callback's `!info.IsDir()` guard) and then walks each directory
with its entries sorted by name.  The callback records
`filepath.Rel(workspacePath, path)` whenever the base name matches
case-insensitively; since every visited `path` is the workspace root
joined with the relative path, the walk below carries the relative
path directly. -/

/-- Go `strings.EqualFold` restricted to ASCII folding (the modelled
names are ASCII). -/
def eqFold (a b : String) : Bool := strLower a == strLower b

/-- The walk of `FindFileByName` over a run of entries (already in
visit order), collecting the relative paths of the files whose name
matches `filename` case-insensitively, in traversal order. -/
def findSeq (filename : String) : String → List FSEntry → List String
  | _, [] => []
  | relPre, .file n _ :: t =>
    (if eqFold n filename then [pathJoin [relPre, n]] else []) ++ findSeq filename relPre t
  | relPre, .dir n es :: t =>
    findSeq filename (pathJoin [relPre, n]) (List.insertionSort byLE es) ++
      findSeq filename relPre t
termination_by _ l => sizeOf l
decreasing_by
  all_goals
    simp only [sizeOf_insertionSort_eq, List.cons.sizeOf_spec, FSEntry.dir.sizeOf_spec,
      FSEntry.file.sizeOf_spec]
    omega

/-- Embedding of `FileSystem.FindFileByName` (filesystem.go:136-165):
walk the workspace, collect case-insensitive name matches, and fail
with the not-found error exactly when nothing matched. -/
def FindFileByName (workspace : List FSEntry) (filename : String) :
    Except String (List String) :=
  let foundPaths := findSeq filename "" (List.insertionSort byLE workspace)
  if foundPaths = [] then .error "file not found" else .ok foundPaths

/-- Spec side for `FindFileByName`: every file of the tree in
traversal order, as (relative path, file name) pairs. -/
def dfsFiles : String → List FSEntry → List (String × String)
  | _, [] => []
  | relPre, .file n _ :: t => (pathJoin [relPre, n], n) :: dfsFiles relPre t
  | relPre, .dir n es :: t =>
    dfsFiles (pathJoin [relPre, n]) (List.insertionSort byLE es) ++ dfsFiles relPre t
termination_by _ l => sizeOf l
decreasing_by
  all_goals
    simp only [sizeOf_insertionSort_eq, List.cons.sizeOf_spec, FSEntry.dir.sizeOf_spec,
      FSEntry.file.sizeOf_spec]
    omega

/-- The matching relative paths of a workspace, in traversal order:
all files, filtered by case-insensitive name equality. -/
def matchesOf (workspace : List FSEntry) (filename : String) : List String :=
  ((dfsFiles "" (List.insertionSort byLE workspace)).filter fun q => eqFold q.2 filename).map
    Prod.fst

/-! ### `GetFileStats` / `countFilesInPath` (part_004:213-223, 233-271)

`filepath.WalkDir` visits each directory's entries sorted by name; the
callback returns `filepath.SkipDir` for every directory named `.git`
(so the walk never descends into it) and accumulates, for every other
regular file, one file and its size. -/

/-- The walk of `countFilesInPath` over a run of entries (already in
visit order): (number of files, total byte size), skipping every
directory named `.git`. -/
def countSeq : List FSEntry → Nat × Nat
  | [] => (0, 0)
  | .file _ content :: t =>
    let r := countSeq t
    (r.1 + 1, r.2 + content.length)
  | .dir n es :: t =>
    if n = ".git" then countSeq t
    else
      let r1 := countSeq (List.insertionSort byLE es)
      let r2 := countSeq t
      (r1.1 + r2.1, r1.2 + r2.2)
termination_by l => sizeOf l
decreasing_by
  all_goals
    simp only [sizeOf_insertionSort_eq, List.cons.sizeOf_spec, FSEntry.dir.sizeOf_spec,
      FSEntry.file.sizeOf_spec]
    omega

/-- Embedding of `countFilesInPath` (part_004:233-271) on the
directory with base name `rootName` holding `entries`: the root
itself is the walk's first visited entry, so a root named `.git` is
skipped whole. -/
def countFilesInPath (rootName : String) (entries : List FSEntry) : Nat × Nat :=
  if rootName = ".git" then (0, 0) else countSeq (List.insertionSort byLE entries)

/-- The per-entry contribution to `countSeq`. -/
def entryCount : FSEntry → Nat × Nat
  | .file _ content => (1, content.length)
  | .dir n es => if n = ".git" then (0, 0) else countSeq (List.insertionSort byLE es)

/-- Spec side for the stats walk: every file of the tree together with
the names of the directories on its path from the walk root (root
name included) and its byte size. -/
def filesWithAncestors (anc : List String) : List FSEntry → List (List String × Nat)
  | [] => []
  | .file _ content :: t => (anc, content.length) :: filesWithAncestors anc t
  | .dir n es :: t => filesWithAncestors (anc ++ [n]) es ++ filesWithAncestors anc t
termination_by l => sizeOf l
decreasing_by
  all_goals
    simp only [sizeOf_insertionSort_eq, List.cons.sizeOf_spec, FSEntry.dir.sizeOf_spec,
      FSEntry.file.sizeOf_spec]
    omega

/-- The files a stats walk rooted at a `.git`-free ancestor chain
counts: those with no `.git` component on their directory path. -/
def gitFreeFiles (anc : List String) (l : List FSEntry) : List (List String × Nat) :=
  (filesWithAncestors anc l).filter fun q => decide (".git" ∉ q.1)

theorem one_le_sizeOf_list {α : Type} [SizeOf α] (l : List α) : 1 ≤ sizeOf l := by
  cases l <;> simp only [List.nil.sizeOf_spec, List.cons.sizeOf_spec] <;> omega

/-- The walk of `FindFileByName` collects exactly the traversal-order
file listing filtered by case-insensitive name equality. -/
theorem findSeq_eq_filter (filename : String) (N : Nat) :
    ∀ (relPre : String) (l : List FSEntry), sizeOf l ≤ N →
      findSeq filename relPre l
        = ((dfsFiles relPre l).filter fun q => eqFold q.2 filename).map Prod.fst := by
  induction N with
  | zero =>
    intro relPre l h
    exact absurd h (by have := one_le_sizeOf_list l; omega)
  | succ N ih =>
    intro relPre l h
    cases l with
    | nil => simp [findSeq, dfsFiles]
    | cons e t =>
      cases e with
      | file n c =>
        have ht : sizeOf t ≤ N := by
          have hc := one_le_sizeOf_list c
          simp only [List.cons.sizeOf_spec, FSEntry.file.sizeOf_spec] at h
          omega
        simp only [findSeq, dfsFiles, ih relPre t ht, List.filter_cons]
        by_cases hf : eqFold n filename = true <;> simp [hf]
      | dir n es =>
        have hes : sizeOf (List.insertionSort byLE es) ≤ N := by
          rw [sizeOf_insertionSort_eq]
          simp only [List.cons.sizeOf_spec, FSEntry.dir.sizeOf_spec] at h
          have := one_le_sizeOf_list t
          omega
        have ht : sizeOf t ≤ N := by
          simp only [List.cons.sizeOf_spec, FSEntry.dir.sizeOf_spec] at h
          have := one_le_sizeOf_list es
          omega
        simp only [findSeq, dfsFiles, ih _ (List.insertionSort byLE es) hes, ih relPre t ht,
          List.filter_append, List.map_append]

theorem countSeq_cons (e : FSEntry) (t : List FSEntry) :
    countSeq (e :: t)
      = ((entryCount e).1 + (countSeq t).1, (entryCount e).2 + (countSeq t).2) := by
  cases e with
  | file n c =>
    simp only [countSeq, entryCount, Prod.ext_iff]
    omega
  | dir n es =>
    by_cases hg : n = ".git"
    · simp only [countSeq, entryCount, hg, reduceIte, Prod.ext_iff]
      omega
    · simp only [countSeq, entryCount, if_neg hg]

theorem countSeq_perm {l1 l2 : List FSEntry} (h : List.Perm l1 l2) :
    countSeq l1 = countSeq l2 := by
  induction h with
  | nil => rfl
  | cons x _ ih => rw [countSeq_cons, countSeq_cons, ih]
  | swap x y t =>
    rw [countSeq_cons, countSeq_cons, countSeq_cons, countSeq_cons]
    simp only [Prod.ext_iff]
    omega
  | trans _ _ ih1 ih2 => rw [ih1, ih2]

/-- Every file collected under ancestor chain `anc` carries `anc` as a
prefix of its directory path. -/
theorem filesWithAncestors_extends (N : Nat) :
    ∀ (anc : List String) (l : List FSEntry), sizeOf l ≤ N →
      ∀ q ∈ filesWithAncestors anc l, ∃ suf, q.1 = anc ++ suf := by
  induction N with
  | zero =>
    intro _ l h
    exact absurd h (by have := one_le_sizeOf_list l; omega)
  | succ N ih =>
    intro anc l h
    cases l with
    | nil => simp [filesWithAncestors]
    | cons e t =>
      cases e with
      | file n c =>
        have ht : sizeOf t ≤ N := by
          have hc := one_le_sizeOf_list c
          simp only [List.cons.sizeOf_spec, FSEntry.file.sizeOf_spec] at h
          omega
        intro q hq
        simp only [filesWithAncestors, List.mem_cons] at hq
        rcases hq with hq | hq
        · exact ⟨[], by simp [hq]⟩
        · exact ih anc t ht q hq
      | dir n es =>
        have hes : sizeOf es ≤ N := by
          simp only [List.cons.sizeOf_spec, FSEntry.dir.sizeOf_spec] at h
          have := one_le_sizeOf_list t
          omega
        have ht : sizeOf t ≤ N := by
          simp only [List.cons.sizeOf_spec, FSEntry.dir.sizeOf_spec] at h
          have := one_le_sizeOf_list es
          omega
        intro q hq
        simp only [filesWithAncestors, List.mem_append] at hq
        rcases hq with hq | hq
        · obtain ⟨suf, hsuf⟩ := ih (anc ++ [n]) es hes q hq
          exact ⟨[n] ++ suf, by simp [hsuf]⟩
        · exact ih anc t ht q hq

/-- The stats walk over a run of entries equals, componentwise, the
count and byte-sum of the `.git`-free files below a `.git`-free
ancestor chain. -/
theorem countSeq_eq_gitFree (N : Nat) :
    ∀ (anc : List String) (l : List FSEntry), sizeOf l ≤ N → ".git" ∉ anc →
      countSeq l = ((gitFreeFiles anc l).length, ((gitFreeFiles anc l).map Prod.snd).sum) := by
  induction N with
  | zero =>
    intro _ l h
    exact absurd h (by have := one_le_sizeOf_list l; omega)
  | succ N ih =>
    intro anc l h hg
    cases l with
    | nil => simp [countSeq, gitFreeFiles, filesWithAncestors]
    | cons e t =>
      cases e with
      | file n c =>
        have ht : sizeOf t ≤ N := by
          have hc := one_le_sizeOf_list c
          simp only [List.cons.sizeOf_spec, FSEntry.file.sizeOf_spec] at h
          omega
        rw [countSeq_cons, ih anc t ht hg]
        have hstep : List.filter (fun q => decide (".git" ∉ q.1))
              ((anc, c.length) :: filesWithAncestors anc t)
            = (anc, c.length) :: List.filter (fun q => decide (".git" ∉ q.1))
                (filesWithAncestors anc t) := by
          rw [List.filter_cons]
          simp [hg]
        simp only [gitFreeFiles, filesWithAncestors, hstep, entryCount,
          List.length_cons, List.map_cons, List.sum_cons, Prod.ext_iff]
        exact ⟨Nat.add_comm 1 _, trivial⟩
      | dir n es =>
        have hes : sizeOf es ≤ N := by
          simp only [List.cons.sizeOf_spec, FSEntry.dir.sizeOf_spec] at h
          have := one_le_sizeOf_list t
          omega
        have ht : sizeOf t ≤ N := by
          simp only [List.cons.sizeOf_spec, FSEntry.dir.sizeOf_spec] at h
          have := one_le_sizeOf_list es
          omega
        rw [countSeq_cons, ih anc t ht hg]
        by_cases hgit : n = ".git"
        · have hdrop : (filesWithAncestors (anc ++ [n]) es).filter
              (fun q => decide (".git" ∉ q.1)) = [] := by
            rw [List.filter_eq_nil_iff]
            intro q hq
            obtain ⟨suf, hsuf⟩ := filesWithAncestors_extends (sizeOf es) (anc ++ [n]) es
              le_rfl q hq
            simp [hsuf, hgit]
          have hec : entryCount (FSEntry.dir n es) = (0, 0) := by
            simp [entryCount, hgit]
          simp only [gitFreeFiles, filesWithAncestors, List.filter_append, hdrop,
            List.nil_append, hec, Prod.ext_iff]
          exact ⟨Nat.zero_add _, Nat.zero_add _⟩
        · have hanc2 : ".git" ∉ anc ++ [n] := by
            simp only [List.mem_append, List.mem_singleton]
            rintro (hh | hh)
            · exact hg hh
            · exact hgit hh.symm
          have hec : entryCount (FSEntry.dir n es)
              = ((gitFreeFiles (anc ++ [n]) es).length,
                 ((gitFreeFiles (anc ++ [n]) es).map Prod.snd).sum) := by
            have hperm : countSeq (List.insertionSort byLE es) = countSeq es :=
              countSeq_perm (List.perm_insertionSort byLE es)
            simp only [entryCount, if_neg hgit, hperm]
            exact ih (anc ++ [n]) es hes hanc2
          simp only [gitFreeFiles, filesWithAncestors, List.filter_append,
            List.length_append, List.map_append, List.sum_append, hec, Prod.ext_iff]

end NovaMD

namespace NovaMD

/-- C1: path resolution is claimed to reject, with a path-escape
error, every relative path whose lexical normalization is not a strict
descendant of the workspace root, with a separator-aware check; with
root `/data/7/12`, the input `../123/secret.txt` normalizes to the
sibling directory `/data/7/123/secret.txt`, yet `ValidatePath`
accepts it because the code uses a bare `strings.HasPrefix` check,
while the separator-aware check demanded by the spec rejects it. -/
theorem validatePath_accepts_sibling_escape :
    ValidatePath "/data" 7 12 "../123/secret.txt" = .ok "/data/7/123/secret.txt" ∧
    validatePathSeparatorAware "/data" 7 12 "../123/secret.txt" =
      .error "invalid path: outside of workspace" := by
  constructor
  · rfl
  · rfl

/-- C2 counterexample: enabling remote sync with a failing initial
ensure-repo step is claimed to leave the registry unchanged, but with
an empty registry and an `EnsureRepo` failure, `SetupGitRepo` returns
the underlying error while the freshly constructed handle is still
registered under `(7, 3)`. -/
theorem setupGitRepo_failure_retains_handle :
    (SetupGitRepo ⟨"/data", []⟩ 7 3 "https://example.com/r.git" "u" "tok"
        (some "failed to clone repository")).2 = some "failed to clone repository" ∧
    getGitRepo (SetupGitRepo ⟨"/data", []⟩ 7 3 "https://example.com/r.git" "u" "tok"
        (some "failed to clone repository")).1 7 3
      = some ⟨"https://example.com/r.git", "u", "tok", "/data/7/3"⟩ :=
  ⟨rfl, rfl⟩

/-- C2 amended: `SetupGitRepo` inserts the freshly constructed handle
into the registry before invoking `EnsureRepo`, so the handle is
registered for `(userID, workspaceID)` regardless of the ensure-repo
outcome, and the underlying `EnsureRepo` result is returned to the
caller unchanged. -/
theorem setupGitRepo_registers_handle_and_returns_ensure_error
    (fs : FileSystem) (u w : Nat) (url gu gt : String) (e : Option String) :
    (SetupGitRepo fs u w url gu gt e).2 = e ∧
    getGitRepo (SetupGitRepo fs u w url gu gt e).1 u w
      = some ⟨url, gu, gt, GetWorkspacePath fs.RootDir u w⟩ := by
  refine ⟨rfl, ?_⟩
  simp [SetupGitRepo, getGitRepo, lookupA_insertA_self]

/-- C5: for every workspace-valid relative path and every byte
sequence (empty and non-UTF8 binary included), a successful `SaveFile`
followed by `GetFileContent` at the same path returns exactly the
written bytes. -/
theorem saveFile_getFileContent_round_trip (fs : FileSystem) (disk : Disk)
    (u w : Nat) (p fp : String) (b : List Nat)
    (h : ValidatePath fs.RootDir u w p = .ok fp) :
    SaveFile fs disk u w p b = .ok (insertA disk fp b) ∧
    GetFileContent fs (insertA disk fp b) u w p = .ok b := by
  constructor
  · simp [SaveFile, h]
  · simp [GetFileContent, h, lookupA_insertA_self]

/-- C5 witness: the round trip evaluated for workspace `(7, 3)` under
root `/data`, path `notes/a.md` and binary content `[104, 0, 255]`. -/
theorem saveFile_getFileContent_round_trip_witness :
    SaveFile ⟨"/data", []⟩ [] 7 3 "notes/a.md" [104, 0, 255] =
      .ok (insertA [] "/data/7/3/notes/a.md" [104, 0, 255]) ∧
    GetFileContent ⟨"/data", []⟩ (insertA [] "/data/7/3/notes/a.md" [104, 0, 255])
        7 3 "notes/a.md" = .ok [104, 0, 255] :=
  saveFile_getFileContent_round_trip ⟨"/data", []⟩ [] 7 3 "notes/a.md"
    "/data/7/3/notes/a.md" [104, 0, 255] rfl

/-- C6: `StageCommitAndPush` with no registered handle fails with the
git-not-configured error and attempts neither commit nor push; when
the commit fails, the push is never attempted, the state is unchanged
and the commit error is returned; when the push fails after a
successful commit, the commit is not rolled back (the local history
has grown by the new commit while the remote history is unchanged, so
the local clone is one push ahead) and the push error is surfaced;
when both succeed, commit runs before push and the remote catches up. -/
theorem stageCommitAndPush_sequencing (fs : FileSystem) (u w : Nat)
    (st : RepoState) (msg : String) (env : GitEnv) :
    (getGitRepo fs u w = none →
      StageCommitAndPush fs u w st msg env
        = (st, [], some "git settings not configured for this workspace")) ∧
    (∀ r ce, getGitRepo fs u w = some r → env.commitErr = some ce →
      StageCommitAndPush fs u w st msg env = (st, [.commitOp], some ce)) ∧
    (∀ r pe, getGitRepo fs u w = some r → env.commitErr = none → env.pushErr = some pe →
      StageCommitAndPush fs u w st msg env
        = (⟨msg :: st.localHistory, st.remoteHistory⟩, [.commitOp, .pushOp], some pe)) ∧
    (∀ r, getGitRepo fs u w = some r → env.commitErr = none → env.pushErr = none →
      StageCommitAndPush fs u w st msg env
        = (⟨msg :: st.localHistory, msg :: st.localHistory⟩, [.commitOp, .pushOp], none)) := by
  refine ⟨?_, ?_, ?_, ?_⟩ <;> intros <;>
    simp_all [StageCommitAndPush, CommitLocal, PushRemote]

/-- C6 witness: with a registered handle for `(7, 3)` and a failing
commit the call stops after the commit attempt; with no registered
handle the call fails with the git-not-configured error and an empty
trace. -/
theorem stageCommitAndPush_sequencing_witness :
    StageCommitAndPush ⟨"/data", [(7, [(3, ⟨"https://example.com/r.git", "u", "t", "/data/7/3"⟩)])]⟩
        7 3 ⟨[], []⟩ "save" ⟨none, none, none, some "commit failed", none⟩
      = (⟨[], []⟩, [.commitOp], some "commit failed") ∧
    StageCommitAndPush ⟨"/data", []⟩ 7 3 ⟨[], []⟩ "save" ⟨none, none, none, none, none⟩
      = (⟨[], []⟩, [], some "git settings not configured for this workspace") := by
  have h1 := stageCommitAndPush_sequencing
    ⟨"/data", [(7, [(3, ⟨"https://example.com/r.git", "u", "t", "/data/7/3"⟩)])]⟩
    7 3 ⟨[], []⟩ "save" ⟨none, none, none, some "commit failed", none⟩
  have h2 := stageCommitAndPush_sequencing ⟨"/data", []⟩ 7 3 ⟨[], []⟩ "save"
    ⟨none, none, none, none, none⟩
  exact ⟨h1.2.1 _ _ rfl rfl, h2.1 rfl⟩

/-- C7: starting with no local clone, a successful `EnsureRepo`
performs exactly one clone and no pull; a second `EnsureRepo` on the
resulting state (with the `.git` directory now present and the open
step succeeding) performs no clone and exactly one pull; and whenever
a local clone already exists, `EnsureRepo` never clones again. -/
theorem ensureRepo_clone_once_then_pull (c : GitClient) (env1 env2 : GitEnv)
    (h1 : env1.cloneErr = none) (h2 : env2.openErr = none) :
    (EnsureRepo ⟨false⟩ c env1).trace = [.cloneOp] ∧
    (EnsureRepo ⟨false⟩ c env1).err = none ∧
    (EnsureRepo (EnsureRepo ⟨false⟩ c env1).world (EnsureRepo ⟨false⟩ c env1).client env2).trace
      = [.openOp, .pullOp] ∧
    (∀ w0 c0 env, w0.gitDirExists = true → ((EnsureRepo w0 c0 env).trace.count .cloneOp) = 0) := by
  refine ⟨?_, ?_, ?_, ?_⟩
  · simp [EnsureRepo, Clone, h1]
  · simp [EnsureRepo, Clone, h1]
  · cases h : env2.pullErr <;>
      simp [EnsureRepo, Clone, PullClient, h1, h2, h]
  · intro w0 c0 env hw
    cases ho : env.openErr <;> cases hp : env.pullErr <;>
      simp [EnsureRepo, PullClient, hw, ho, hp]

/-- C7 witness: both `EnsureRepo` calls evaluated with an
all-successful environment, starting from a fresh working directory. -/
theorem ensureRepo_clone_once_then_pull_witness :
    (EnsureRepo ⟨false⟩ ⟨false⟩ ⟨none, none, none, none, none⟩).trace = [.cloneOp] ∧
    (EnsureRepo (EnsureRepo ⟨false⟩ ⟨false⟩ ⟨none, none, none, none, none⟩).world
        (EnsureRepo ⟨false⟩ ⟨false⟩ ⟨none, none, none, none, none⟩).client
        ⟨none, none, none, none, none⟩).trace = [.openOp, .pullOp] := by
  have h := ensureRepo_clone_once_then_pull ⟨false⟩ ⟨none, none, none, none, none⟩
    ⟨none, none, none, none, none⟩ rfl rfl
  exact ⟨h.1, h.2.2.1⟩

/-- C10: the registry keeps every present user key mapped to a
non-empty inner workspace map: `SetupGitRepo` preserves the invariant
(it creates an inner map only when immediately inserting the handle),
`DisableGitRepo` preserves it (after removing a workspace handle it
drops the user key once the inner map is empty), and `DisableGitRepo`
leaves the whole `FileSystem` unchanged when no handle is registered
for `(userID, workspaceID)`. -/
theorem registry_nonempty_invariant (fs : FileSystem) (u w : Nat)
    (url gu gt : String) (e : Option String) (hInv : RegistryInv fs.GitRepos) :
    RegistryInv (SetupGitRepo fs u w url gu gt e).1.GitRepos ∧
    RegistryInv (DisableGitRepo fs u w).GitRepos ∧
    (getGitRepo fs u w = none → DisableGitRepo fs u w = fs) := by
  refine ⟨?_, ?_, ?_⟩
  · intro p hp
    rcases mem_insertA _ _ _ _ hp with hmem | heq
    · exact hInv p hmem
    · rw [heq]
      exact insertA_ne_nil _ _ _
  · unfold DisableGitRepo
    cases hu : lookupA fs.GitRepos u with
    | none => exact hInv
    | some inner =>
      dsimp only
      by_cases hlen : (eraseA inner w).length = 0
      · rw [if_pos hlen]
        intro p hp
        exact hInv p (mem_eraseA _ _ _ hp)
      · rw [if_neg hlen]
        intro p hp
        rcases mem_insertA _ _ _ _ hp with hmem | heq
        · exact hInv p hmem
        · rw [heq]
          intro hnil
          have hnil2 : eraseA inner w = [] := hnil
          rw [hnil2] at hlen
          exact hlen rfl
  · intro hnone
    unfold getGitRepo at hnone
    unfold DisableGitRepo
    cases hu : lookupA fs.GitRepos u with
    | none => rfl
    | some inner =>
      dsimp only
      rw [hu] at hnone
      simp only at hnone
      have herase : eraseA inner w = inner := eraseA_of_lookupA_none _ _ hnone
      have hne : inner ≠ [] := hInv (u, inner) (lookupA_mem _ _ _ hu)
      have hlen : ¬ (eraseA inner w).length = 0 := by
        rw [herase]
        intro hz
        exact hne (List.length_eq_zero.mp hz)
      rw [if_neg hlen, herase, insertA_of_lookupA_eq _ _ _ hu]

/-- C4: for every directory state, the recursive listing emits, at
each level, all subdirectory nodes before any file node; the
subdirectories are a permutation of the level's subdirectory entries
sorted under the case-insensitive name order, the files likewise, and
each subdirectory node is recursively expanded (`entryNode` carries
`walkDirectory` of its children at the extended prefix).  This holds
for every mixture of entry names, including names differing only by
case (`ciLE` is a total preorder, never distinguishing such names
beyond their case-folded form). -/
theorem walkDirectory_dirs_first_sorted (pre : String) (entries : List FSEntry) :
    ∃ ds fls,
      walkDirectory pre entries = ds.map (entryNode pre) ++ fls.map (entryNode pre) ∧
      List.Perm ds (entries.filter FSEntry.isDir) ∧
      List.Perm fls (entries.filter fun e => !e.isDir) ∧
      List.Sorted ciLE ds ∧ List.Sorted ciLE fls := by
  refine ⟨List.insertionSort ciLE (entries.filter FSEntry.isDir),
    List.insertionSort ciLE (entries.filter fun e => !e.isDir), ?_, ?_, ?_, ?_, ?_⟩
  · rw [walkDirectory]
    rw [walkNodes_eq_map, walkNodes_eq_map]
  · exact List.perm_insertionSort _ _
  · exact List.perm_insertionSort _ _
  · exact List.sorted_insertionSort _ _
  · exact List.sorted_insertionSort _ _

/-- C8: `FindFileByName` returns exactly the relative paths of the
files whose name matches the query case-insensitively, in the walk's
traversal order (`matchesOf`: the traversal-order file listing
filtered by case-insensitive equality, not re-sorted), and fails with
the not-found error exactly when that list is empty; in particular a
workspace holding `notes/A.md` and `NOTES/a.MD` yields both paths for
the query `a.md`. -/
theorem findFileByName_case_insensitive (workspace : List FSEntry) (filename : String) :
    FindFileByName workspace filename
      = (if matchesOf workspace filename = [] then .error "file not found"
         else .ok (matchesOf workspace filename)) ∧
    FindFileByName [.dir "NOTES" [.file "a.MD" []], .dir "notes" [.file "A.md" []]] "a.md"
      = .ok ["NOTES/a.MD", "notes/A.md"] := by
  constructor
  · unfold FindFileByName matchesOf
    rw [findSeq_eq_filter filename (sizeOf (List.insertionSort byLE workspace)) ""
      (List.insertionSort byLE workspace) le_rfl]
  · have hs : List.insertionSort byLE
        [FSEntry.dir "NOTES" [FSEntry.file "a.MD" []], FSEntry.dir "notes" [FSEntry.file "A.md" []]]
        = [FSEntry.dir "NOTES" [FSEntry.file "a.MD" []],
           FSEntry.dir "notes" [FSEntry.file "A.md" []]] := rfl
    have hs2 : List.insertionSort byLE [FSEntry.file "a.MD" ([] : List Nat)]
        = [FSEntry.file "a.MD" []] := rfl
    have hs3 : List.insertionSort byLE [FSEntry.file "A.md" ([] : List Nat)]
        = [FSEntry.file "A.md" []] := rfl
    have h1 : eqFold "a.MD" "a.md" = true := rfl
    have h2 : eqFold "A.md" "a.md" = true := rfl
    simp only [FindFileByName, hs, findSeq, hs2, hs3, h1, h2, if_true, List.append_nil,
      List.nil_append, List.cons_append, reduceCtorEq, if_false]
    rfl

/-- C9: the stats walk rooted at a directory named `rootName` with
entries `entries` counts exactly the regular files that have no
`.git` component among the directory names on their path (root name
included): no file under a `.git` directory contributes to the file
count or to the total size — the walk does not descend into such
directories — and every other regular file contributes exactly once
to both components. -/
theorem countFilesInPath_skips_git (rootName : String) (entries : List FSEntry) :
    countFilesInPath rootName entries
      = ((gitFreeFiles [rootName] entries).length,
         ((gitFreeFiles [rootName] entries).map Prod.snd).sum) := by
  by_cases hr : rootName = ".git"
  · subst hr
    have hnil : gitFreeFiles [".git"] entries = [] := by
      unfold gitFreeFiles
      rw [List.filter_eq_nil_iff]
      intro q hq
      obtain ⟨suf, hsuf⟩ := filesWithAncestors_extends (sizeOf entries) [".git"] entries
        le_rfl q hq
      simp [hsuf]
    unfold countFilesInPath
    rw [if_pos rfl, hnil]
    rfl
  · unfold countFilesInPath
    rw [if_neg hr, countSeq_perm (List.perm_insertionSort byLE entries)]
    exact countSeq_eq_gitFree (sizeOf entries) [rootName] entries le_rfl
      (by simp only [List.mem_singleton]; exact fun hh => hr hh.symm)

/-- C10 witness: the invariant after enabling sync for `(7, 3)` on an
empty registry, and `DisableGitRepo` as the identity on an empty
registry. -/
theorem registry_nonempty_invariant_witness :
    RegistryInv (SetupGitRepo ⟨"/data", []⟩ 7 3 "https://example.com/r.git" "u" "tok" none).1.GitRepos ∧
    RegistryInv (DisableGitRepo ⟨"/data", []⟩ 7 3).GitRepos ∧
    DisableGitRepo ⟨"/data", []⟩ 7 3 = ⟨"/data", []⟩ := by
  have h := registry_nonempty_invariant ⟨"/data", []⟩ 7 3 "https://example.com/r.git"
    "u" "tok" none (by intro p hp; simp at hp)
  exact ⟨h.1, h.2.1, h.2.2 rfl⟩

end NovaMD
